import Mathlib

/-!
A verification development for the `bvzfilesystemlib` Python module
(`src/bvzfilesystemlib.py`).  The module's functions manipulate POSIX path
strings and query the filesystem through `os` / `os.path` calls.

The embedding below models:
  * paths as `List Char` (the module works on raw strings, and several of its
    behaviours are pure string manipulation, so a character-level model is the
    faithful one);
  * the POSIX string functions used by the module (`os.path.dirname`,
    `os.path.join`, `os.path.split`, `str.lstrip("/")`, `str.rstrip("/")`,
    `str.split("/")`, `str.startswith`);
  * the filesystem as a tree of nodes (regular files with a byte size,
    directories with a reported byte size and an ordered child list, and
    symbolic links carrying a raw target string), plus a current working
    directory, over which `os.path.exists`, `os.path.isdir`, `os.path.islink`,
    `os.path.realpath`, `os.path.getsize`, `os.listdir` and `os.walk` are
    interpreted;
  * fallible operations (Python `assert`, OS errors) as `Except Err`.

Model notes (all irrelevant to the claims proved below, stated for honesty):
  * `islinkPath` and the component walk do not interpret `.` / `..` inside the
    looked-up string and do not resolve symlinks in intermediate components;
    every concrete filesystem used below keeps symlinks out of intermediate
    positions, where the model agrees with POSIX `lstat`;
  * `os.walk` is modelled with a recursion-depth budget of 64 and classifies
    symlink children as non-directories (CPython with `followlinks=False`
    likewise never descends into them);
  * `realpath` carries a resolution budget, mirroring the loop guard of
    CPython's `posixpath.realpath`; the budget is generous enough for every
    filesystem appearing in this file.
-/

abbrev PathStr := List Char

/-- Drop the longest suffix whose characters all satisfy `q`. -/
def dropTrailing (q : Char → Bool) (p : PathStr) : PathStr :=
  (p.reverse.dropWhile q).reverse

/-- `str.rstrip(os.path.sep)` on POSIX: drop trailing slashes. -/
def rstripSlashes (p : PathStr) : PathStr :=
  dropTrailing (fun c => c == '/') p

/-- `str.lstrip("/")`: drop leading slashes. -/
def lstripSlashes (p : PathStr) : PathStr :=
  p.dropWhile (fun c => c == '/')

/-- `os.path.dirname` (posixpath): everything up to the final slash run, with
trailing slashes stripped unless the head is all slashes. -/
def dirnameCh (p : PathStr) : PathStr :=
  let head := dropTrailing (fun c => c != '/') p
  if !head.isEmpty && head.any (fun c => c != '/') then
    dropTrailing (fun c => c == '/') head
  else
    head

/-- `os.path.split` (posixpath): `(dirname-like head, final component)`. -/
def splitPy (p : PathStr) : PathStr × PathStr :=
  let tail := (p.reverse.takeWhile (fun c => c != '/')).reverse
  let head := dropTrailing (fun c => c != '/') p
  (if !head.isEmpty && head.any (fun c => c != '/') then
     dropTrailing (fun c => c == '/') head
   else
     head,
   tail)

/-- `os.path.join(a, b)` (posixpath, two arguments). -/
def joinOne (path b : PathStr) : PathStr :=
  if b.head? = some '/' then b
  else if path.isEmpty || path.getLast? = some '/' then path ++ b
  else path ++ '/' :: b

/-- `os.path.join(a, *rest)` (posixpath, variadic). -/
def joinList (a : PathStr) (rest : List PathStr) : PathStr :=
  rest.foldl joinOne a

/-- `str.split("/")`: split on every slash, keeping empty pieces; the empty
string splits to one empty piece, exactly as in Python. -/
def splitSlash : PathStr → List PathStr
  | [] => [[]]
  | c :: rest =>
    if c = '/' then [] :: splitSlash rest
    else
      match splitSlash rest with
      | [] => [[c]]
      | s :: ss => (c :: s) :: ss

/-- A filesystem node: a regular file with its byte size, a directory with its
reported byte size (what `os.path.getsize` returns for it) and an ordered child
list, or a symbolic link holding its raw target string. -/
inductive Node where
  | file (size : Nat)
  | dir (size : Nat) (children : List (PathStr × Node))
  | symlink (target : PathStr)

/-- Filesystem state: the root directory node plus the current working
directory, given as a list of path components. -/
structure FS where
  cwd : List PathStr
  root : Node

def isDirNode : Node → Bool
  | Node.dir _ _ => true
  | _ => false

/-- Follow a component list downward from a node.  Purely structural: no
symlink is followed and `.` / `..` components are not interpreted. -/
def descendNode : Node → List PathStr → Option Node
  | n, [] => some n
  | Node.dir _ children, c :: rest =>
    match children.find? (fun e => e.1 == c) with
    | some e => descendNode e.2 rest
    | none => none
  | _, _ :: _ => none

/-- Build an absolute path string from a component list (`[] ↦ "/"`). -/
def mkAbsR : List PathStr → PathStr
  | [] => ['/']
  | [c] => '/' :: c
  | c :: rest => mkAbsR rest ++ '/' :: c

/-- Absolute path from components in natural (root-first) order. -/
def mkAbs (cs : List PathStr) : PathStr :=
  mkAbsR cs.reverse

/-- The component-resolution loop of `os.path.realpath`: walk the remaining
components, skipping empty and `.` pieces, popping on `..`, and splicing in the
target components whenever the partially resolved path names a symlink.  The
`fuel` budget mirrors CPython's symlink-loop guard (on exhaustion the component
is kept verbatim and the walk keeps going without resolving further links). -/
def realpathLoop (root : Node) (fuel : Nat) (resolved : List PathStr) (rem : List PathStr) :
    List PathStr :=
  match rem with
  | [] => resolved
  | c :: rest =>
    match fuel with
    | 0 => resolved
    | fuel' + 1 =>
      if c = [] ∨ c = ['.'] then realpathLoop root fuel' resolved rest
      else if c = ['.', '.'] then realpathLoop root fuel' resolved.dropLast rest
      else
        match descendNode root (resolved ++ [c]) with
        | some (Node.symlink t) =>
          if t.head? = some '/' then realpathLoop root fuel' [] (splitSlash t ++ rest)
          else realpathLoop root fuel' resolved (splitSlash t ++ rest)
        | _ => realpathLoop root fuel' (resolved ++ [c]) rest

/-- Fully resolved component list of a path (relative paths resolve against the
current working directory, as the underlying system calls do). -/
def resolveComps (fs : FS) (p : PathStr) : List PathStr :=
  let comps := if p.head? = some '/' then splitSlash p else fs.cwd ++ splitSlash p
  realpathLoop fs.root (comps.length + 4096) [] comps

/-- `os.path.realpath`: canonical absolute path, following symlink chains;
non-existent components pass through syntactically, as in CPython. -/
def realpath (fs : FS) (p : PathStr) : PathStr :=
  mkAbs (resolveComps fs p)

/-- The node a fully resolved path refers to (the model's `stat`). -/
def statNodeAt (fs : FS) (p : PathStr) : Option Node :=
  descendNode fs.root (resolveComps fs p)

/-- `os.path.exists`: the resolved path names a file or directory. -/
def existsPath (fs : FS) (p : PathStr) : Bool :=
  match statNodeAt fs p with
  | some (Node.file _) => true
  | some (Node.dir _ _) => true
  | _ => false

/-- `os.path.isdir`. -/
def isdirPath (fs : FS) (p : PathStr) : Bool :=
  match statNodeAt fs p with
  | some (Node.dir _ _) => true
  | _ => false

/-- `os.path.islink`: the path, looked up without resolving its final
component, names a symlink (`lstat`). -/
def islinkPath (fs : FS) (p : PathStr) : Bool :=
  let comps :=
    (if p.head? = some '/' then splitSlash p else fs.cwd ++ splitSlash p).filter
      (fun c => !c.isEmpty)
  match descendNode fs.root comps with
  | some (Node.symlink _) => true
  | _ => false

/-- Errors surfaced by the embedded operations: Python `assert` failures and
the host errors raised by the `os` calls the module leaves uncaught. -/
inductive Err where
  | assertionError
  | typeError
  | notADirectoryError
  | fileNotFoundError
  | runtimeError
deriving DecidableEq, Repr

/-- A Python `assert`. -/
def pyAssert (b : Bool) : Except Err Unit :=
  if b then Except.ok () else Except.error Err.assertionError

/-- `os.path.getsize` (follows symlinks; directories report their own size). -/
def getsizePath (fs : FS) (p : PathStr) : Except Err Nat :=
  match statNodeAt fs p with
  | some (Node.file s) => Except.ok s
  | some (Node.dir s _) => Except.ok s
  | _ => Except.error Err.fileNotFoundError

/-- `os.listdir`: child names of the resolved directory, in listing order. -/
def listdirPath (fs : FS) (p : PathStr) : Except Err (List PathStr) :=
  match statNodeAt fs p with
  | some (Node.dir _ children) => Except.ok (children.map Prod.fst)
  | some _ => Except.error Err.notADirectoryError
  | none => Except.error Err.fileNotFoundError

/-! ## The module's functions

Each definition below is a direct translation of the corresponding function of
`src/bvzfilesystemlib.py`; source line numbers are given in the doc comments.
-/

/-- A Python argument that is either one string or a list of strings (several
functions of the module accept both shapes). -/
inductive StrOrList where
  | str (s : PathStr)
  | list (l : List PathStr)

/-- A dynamically typed Python value, used where the module type-checks its
argument with `assert type(x) is str`. -/
inductive PyVal where
  | str (s : PathStr)
  | int (n : Int)
  | list (l : List PyVal)
  | noneV

/-- `convert_unix_path_to_os_path` (source lines 65-79):
`assert type(path) is str; return os.path.join(*path.lstrip("/").split("/"))`.
The POSIX host is modelled, so `os.path.join` is the slash join.  A call
`os.path.join()` with zero arguments would raise `TypeError`; `str.split`
never returns an empty list, so that branch is unreachable. -/
def convert_unix_path_to_os_path : PyVal → Except Err PathStr
  | PyVal.str s =>
    match splitSlash (lstripSlashes s) with
    | [] => Except.error Err.typeError
    | a :: rest => Except.ok (joinList a rest)
  | _ => Except.error Err.assertionError

/-- `symlinks_to_real_paths` (source lines 84-105):
`if type(symlinks_p) != list: symlinks_p = list(symlinks_p)` followed by
`os.path.realpath` on each element.  Note that Python's `list(s)` on a string
`s` is the list of its characters, each a one-character string. -/
def symlinks_to_real_paths (fs : FS) : StrOrList → List PathStr
  | StrOrList.str s => (s.map (fun c => ([c] : PathStr))).map (realpath fs)
  | StrOrList.list l => l.map (realpath fs)

/-- Names of the directory children of a child list (`os.walk`'s `dirs`). -/
def dirNames (children : List (PathStr × Node)) : List PathStr :=
  (children.filter (fun e => isDirNode e.2)).map Prod.fst

/-- Names of the non-directory children of a child list (`os.walk`'s `files`). -/
def fileNames (children : List (PathStr × Node)) : List PathStr :=
  (children.filter (fun e => !isDirNode e.2)).map Prod.fst

/-- The recursion of `os.walk` (top-down): yield the triple for the current
directory, then walk each subdirectory, in listing order.  `fuel` bounds the
recursion depth; no filesystem in this file is anywhere near 64 deep. -/
def walkAux (fuel : Nat) (node : Node) (display : PathStr) :
    List (PathStr × List PathStr × List PathStr) :=
  match fuel with
  | 0 => []
  | fuel' + 1 =>
    match node with
    | Node.dir _ children =>
      (display, dirNames children, fileNames children) ::
        (children.filter (fun e => isDirNode e.2)).flatMap
          (fun e => walkAux fuel' e.2 (joinOne display e.1))
    | _ => []

/-- `os.walk(top)`: walks the resolved directory; a non-existent or non-
directory argument yields nothing (errors are swallowed by default). -/
def walkPy (fs : FS) (top : PathStr) : List (PathStr × List PathStr × List PathStr) :=
  match statNodeAt fs top with
  | some (Node.dir s children) => walkAux 64 (Node.dir s children) top
  | _ => []

/-- `recursively_list_files_in_dirs` (source lines 109-133): after the type
normalisation and existence asserts, appends
`os.path.join(dir_d, dir_d, file_n)` for every walked file — the directory
component is joined twice, exactly as in the source. -/
def recursively_list_files_in_dirs (fs : FS) (source_dirs_d : StrOrList) :
    Except Err (List PathStr) :=
  let dirs := match source_dirs_d with
    | StrOrList.str s => [s]
    | StrOrList.list l => l
  if dirs.all (fun d => existsPath fs d) = false then
    Except.error Err.assertionError
  else
    Except.ok (dirs.flatMap (fun source_dir_d =>
      (walkPy fs source_dir_d).flatMap (fun t =>
        t.2.2.map (fun file_n => joinOne (joinOne t.1 t.1) file_n))))

/-- One step of the dictionary update of `dir_files_keyed_by_size` (source
lines 156-161): append the path to the existing bucket for this size, or add a
new bucket at the end (Python dictionaries preserve insertion order). -/
def dictAppend : List (Nat × List PathStr) → Nat → PathStr → List (Nat × List PathStr)
  | [], k, v => [(k, [v])]
  | (k', vs) :: rest, k, v =>
    if k' = k then (k', vs ++ [v]) :: rest else (k', vs) :: dictAppend rest k v

/-- The `for file_n in files_n` loop of `dir_files_keyed_by_size` (source
lines 153-161): size each joined child path and bucket it. -/
def sizeLoop (fs : FS) (path_d : PathStr) :
    List PathStr → List (Nat × List PathStr) → Except Err (List (Nat × List PathStr))
  | [], out => Except.ok out
  | file_n :: rest, out =>
    match getsizePath fs (joinOne path_d file_n) with
    | Except.error e => Except.error e
    | Except.ok file_size => sizeLoop fs path_d rest (dictAppend out file_size (joinOne path_d file_n))

/-- `dir_files_keyed_by_size` (source lines 137-162): assert existence, list
the directory, bucket every listed entry by its `os.path.getsize`.  Note the
source filters nothing: subdirectory entries are listed and sized too. -/
def dir_files_keyed_by_size (fs : FS) (path_d : PathStr) :
    Except Err (List (Nat × List PathStr)) :=
  if existsPath fs path_d = false then Except.error Err.assertionError
  else
    match listdirPath fs path_d with
    | Except.error e => Except.error e
    | Except.ok files_n => sizeLoop fs path_d files_n []

/-- Concatenation of all buckets of a size dictionary, in dictionary order. -/
def flattenVals : List (Nat × List PathStr) → List PathStr
  | [] => []
  | (_, vs) :: rest => vs ++ flattenVals rest

/-- The truthiness test `if depth and count >= depth` of
`ancestor_contains_file` (source line 222): `None` and `0` are falsy, any
other integer is truthy. -/
def depthGuard (depth : Option Int) (count : Int) : Bool :=
  match depth with
  | none => false
  | some d => d != 0 && decide (d ≤ count)

/-- The `while True` loop of `ancestor_contains_file` (source lines 210-230),
instrumented: the result also carries the list of directories that were tested
for marker files, in the order they were examined.  `fuel` is a structural
recursion budget; the loop provably needs at most `test_p.length + 2`
iterations (each `dirname` step either shortens `test_p` or hits the
`already_at_root` latch), and the caller supplies exactly that. -/
def acfLoop (fs : FS) (files_n : List PathStr) (depth : Option Int) :
    Nat → PathStr → Int → Bool → Option PathStr × List PathStr
  | 0, _, _, _ => (none, [])
  | fuel + 1, test_p, count, already_at_root =>
    if (files_n.find? (fun file_n => existsPath fs (joinOne test_p file_n))).isSome then
      (some test_p, [test_p])
    else
      let t2 := dirnameCh test_p
      let c2 := count + 1
      if depthGuard depth c2 then (none, [test_p])
      else if dirnameCh t2 = t2 then
        match already_at_root with
        | true => (none, [test_p])
        | false =>
          let r := acfLoop fs files_n depth fuel t2 c2 true
          (r.1, test_p :: r.2)
      else
        let r := acfLoop fs files_n depth fuel t2 c2 already_at_root
        (r.1, test_p :: r.2)

/-- The normalisation of the starting path in `ancestor_contains_file`
(source lines 201-204): strip trailing separators, then fall back to the
containing directory if the stripped path is not a directory (dead in
practice: the preceding assert already required a directory). -/
def acfStart (fs : FS) (path_p : PathStr) : PathStr :=
  if isdirPath fs (rstripSlashes path_p) then rstripSlashes path_p
  else dirnameCh (rstripSlashes path_p)

/-- `ancestor_contains_file` (source lines 166-230): assert the starting path
exists and is a directory, normalise it, then run the upward loop starting at
its parent directory. -/
def ancestor_contains_file (fs : FS) (path_p : PathStr) (files_n : List PathStr)
    (depth : Option Int) : Except Err (Option PathStr) :=
  if existsPath fs path_p = false then Except.error Err.assertionError
  else if isdirPath fs path_p = false then Except.error Err.assertionError
  else
    Except.ok (acfLoop fs files_n depth
      ((dirnameCh (acfStart fs path_p)).length + 1 + 1)
      (dirnameCh (acfStart fs path_p)) 0 false).1

/-- The directories `ancestor_contains_file` examines (tests for marker
files), in order: the instrumentation of the same loop. -/
def ancestor_examined (fs : FS) (path_p : PathStr) (files_n : List PathStr)
    (depth : Option Int) : List PathStr :=
  (acfLoop fs files_n depth
    ((dirnameCh (acfStart fs path_p)).length + 1 + 1)
    (dirnameCh (acfStart fs path_p)) 0 false).2

/-- `lock_dir` (source lines 234-246): the body consists of the two asserts
and nothing else — no permission change, no filesystem call with an effect —
so the filesystem state is returned unchanged. -/
def lock_dir (fs : FS) (path_d : PathStr) : Except Err FS :=
  if existsPath fs path_d = false then Except.error Err.assertionError
  else if isdirPath fs path_d = false then Except.error Err.assertionError
  else Except.ok fs

/-- `symlink_source_is_in_dir` (source lines 250-276): assert the link is a
symlink, take element `[0]` of `symlinks_to_real_paths(link_p)` (the link path
is passed as a bare string, so it is split into characters by that helper),
split off the directory, and compare with `str.startswith` or equality. -/
def symlink_source_is_in_dir (fs : FS) (link_p path_d : PathStr)
    (include_subdirs : Bool := true) : Except Err Bool :=
  if islinkPath fs link_p = false then Except.error Err.assertionError
  else
    match symlinks_to_real_paths fs (StrOrList.str link_p) with
    | [] => Except.error Err.runtimeError
    | r :: _ =>
      let source_d := (splitPy r).1
      if include_subdirs then Except.ok (List.isPrefixOf path_d source_d)
      else Except.ok (source_d == path_d)

/-! ## Path-string lemmas

Facts about `dirnameCh`, `rstripSlashes` and `mkAbsR` on canonical absolute
paths, i.e. paths built from non-empty, slash-free components. -/

/-- A well-formed path component: non-empty and slash-free. -/
def compOk (c : PathStr) : Prop := c ≠ [] ∧ '/' ∉ c

instance (c : PathStr) : Decidable (compOk c) :=
  decidable_of_iff (c ≠ [] ∧ '/' ∉ c) Iff.rfl

theorem dropWhile_append_all {α : Type} (q : α → Bool) (a y : List α)
    (h : ∀ x ∈ a, q x = true) : (a ++ y).dropWhile q = y.dropWhile q := by
  induction a with
  | nil => rfl
  | cons x xs ih =>
    rw [List.cons_append, List.dropWhile_cons_of_pos (h x (List.mem_cons_self x xs))]
    exact ih (fun z hz => h z (List.mem_cons_of_mem x hz))

theorem find?_isSome_eq_any {α : Type} (p : α → Bool) (l : List α) :
    (l.find? p).isSome = l.any p := by
  induction l with
  | nil => rfl
  | cons a t ih =>
    cases hpa : p a with
    | true =>
      rw [List.find?_cons_of_pos t hpa]
      simp [hpa]
    | false =>
      have hneg : ¬ (p a = true) := by simp [hpa]
      rw [List.find?_cons_of_neg t hneg]
      simp [hpa, ih]

theorem mkAbsR_cons_reverse (c : PathStr) (rest : List PathStr) :
    ∃ X, (mkAbsR (c :: rest)).reverse = c.reverse ++ '/' :: X := by
  cases rest with
  | nil => exact ⟨[], by simp [mkAbsR]⟩
  | cons r rs =>
    refine ⟨(mkAbsR (r :: rs)).reverse, ?_⟩
    simp [mkAbsR, List.reverse_append]

theorem mem_mkAbsR_cons (c : PathStr) (rest : List PathStr) {a : Char} (h : a ∈ c) :
    a ∈ mkAbsR (c :: rest) := by
  cases rest with
  | nil =>
    show a ∈ '/' :: c
    exact List.mem_cons_of_mem _ h
  | cons r rs =>
    show a ∈ mkAbsR (r :: rs) ++ '/' :: c
    exact List.mem_append_right _ (List.mem_cons_of_mem _ h)

theorem mkAbsR_length_pos (rcs : List PathStr) : 0 < (mkAbsR rcs).length := by
  match rcs with
  | [] => simp [mkAbsR]
  | [c] => simp [mkAbsR]
  | c :: r :: rs => simp [mkAbsR]

theorem mkAbsR_length_lt (c : PathStr) (rest : List PathStr) (hc : c ≠ []) :
    (mkAbsR rest).length < (mkAbsR (c :: rest)).length := by
  have hcpos : 0 < c.length := List.length_pos.mpr hc
  cases rest with
  | nil =>
    show (mkAbsR []).length < ('/' :: c).length
    simp [mkAbsR]
    exact hcpos
  | cons r rs =>
    show (mkAbsR (r :: rs)).length < (mkAbsR (r :: rs) ++ '/' :: c).length
    simp

theorem mkAbsR_length_ge (rcs : List PathStr) : rcs.length ≤ (mkAbsR rcs).length := by
  match rcs with
  | [] => simp [mkAbsR]
  | [c] => simp [mkAbsR]
  | c :: r :: rs =>
    have ih := mkAbsR_length_ge (r :: rs)
    show (c :: r :: rs).length ≤ (mkAbsR (r :: rs) ++ '/' :: c).length
    simp at ih ⊢
    omega

/-- The first character of the reversal of a canonical absolute path (its last
character) is not a slash. -/
theorem mkAbsR_rev_head (c : PathStr) (rest : List PathStr) (hc : compOk c) :
    ∃ d t, (mkAbsR (c :: rest)).reverse = d :: t ∧ d ≠ '/' := by
  obtain ⟨X, hX⟩ := mkAbsR_cons_reverse c rest
  obtain ⟨d, t, hdt⟩ := List.exists_cons_of_ne_nil
    (show c.reverse ≠ [] by simpa using hc.1)
  refine ⟨d, t ++ '/' :: X, ?_, ?_⟩
  · rw [hX, hdt]
    rfl
  · intro he
    exact hc.2 (List.mem_reverse.mp (hdt ▸ (he ▸ List.mem_cons_self d t)))

/-- Stripping trailing slashes from a string whose last character is not a
slash changes nothing. -/
theorem dropTrailing_slash_noop (u : PathStr)
    (h : ∃ d t, u.reverse = d :: t ∧ d ≠ '/') :
    dropTrailing (fun c => c == '/') u = u := by
  obtain ⟨d, t, hdt, hd⟩ := h
  unfold dropTrailing
  rw [hdt, List.dropWhile_cons_of_neg (by simpa using hd), ← hdt]
  simp

/-- Stripping trailing slashes removes exactly the appended slash when the
string underneath ends in a non-slash. -/
theorem dropTrailing_slash_append (u : PathStr)
    (h : ∃ d t, u.reverse = d :: t ∧ d ≠ '/') :
    dropTrailing (fun c => c == '/') (u ++ ['/']) = u := by
  obtain ⟨d, t, hdt, hd⟩ := h
  unfold dropTrailing
  rw [List.reverse_append,
      show (['/'].reverse ++ u.reverse) = '/' :: u.reverse by simp,
      List.dropWhile_cons_of_pos (by simp), hdt,
      List.dropWhile_cons_of_neg (by simpa using hd), ← hdt]
  simp

/-- `os.path.dirname` pops the final component of a canonical absolute path. -/
theorem dirnameCh_mkAbsR_cons (c : PathStr) (rest : List PathStr)
    (hc : compOk c) (hrest : ∀ x ∈ rest, compOk x) :
    dirnameCh (mkAbsR (c :: rest)) = mkAbsR rest := by
  have hcall : ∀ x ∈ c.reverse, (x != '/') = true := by
    intro x hx
    have hxc : x ∈ c := List.mem_reverse.mp hx
    have : x ≠ '/' := fun he => hc.2 (he ▸ hxc)
    simpa using this
  cases rest with
  | nil =>
    show dirnameCh ('/' :: c) = mkAbsR []
    have h1 : dropTrailing (fun x => x != '/') ('/' :: c) = ['/'] := by
      unfold dropTrailing
      rw [List.reverse_cons, dropWhile_append_all _ _ _ hcall,
          List.dropWhile_cons_of_neg (by simp)]
      rfl
    simp only [dirnameCh]
    rw [h1]
    rw [if_neg (by decide)]
    rfl
  | cons r rs =>
    have hr : compOk r := hrest r (List.mem_cons_self r rs)
    show dirnameCh (mkAbsR (r :: rs) ++ '/' :: c) = mkAbsR (r :: rs)
    have h1 : dropTrailing (fun x => x != '/') (mkAbsR (r :: rs) ++ '/' :: c)
        = mkAbsR (r :: rs) ++ ['/'] := by
      unfold dropTrailing
      rw [List.reverse_append, List.reverse_cons,
          show (c.reverse ++ ['/']) ++ (mkAbsR (r :: rs)).reverse
             = c.reverse ++ ('/' :: (mkAbsR (r :: rs)).reverse) by simp,
          dropWhile_append_all _ _ _ hcall,
          List.dropWhile_cons_of_neg (by simp)]
      simp
    have hany : ((mkAbsR (r :: rs) ++ ['/']).any (fun ch => ch != '/')) = true := by
      obtain ⟨rh, rt, hr'⟩ := List.exists_cons_of_ne_nil hr.1
      have hmem : rh ∈ mkAbsR (r :: rs) :=
        mem_mkAbsR_cons r rs (hr' ▸ List.mem_cons_self rh rt)
      have hne : rh ≠ '/' := by
        intro he
        exact hr.2 (he ▸ (hr' ▸ List.mem_cons_self rh rt))
      exact List.any_eq_true.mpr ⟨rh, List.mem_append_left _ hmem, by simpa using hne⟩
    simp only [dirnameCh]
    rw [h1]
    rw [if_pos (by simp [hany])]
    exact dropTrailing_slash_append _ (mkAbsR_rev_head r rs hr)

/-- Canonical absolute paths carry no trailing slash, so the module's
`rstrip(os.path.sep)` leaves them unchanged. -/
theorem rstripSlashes_mkAbsR_cons (c : PathStr) (rest : List PathStr) (hc : compOk c) :
    rstripSlashes (mkAbsR (c :: rest)) = mkAbsR (c :: rest) :=
  dropTrailing_slash_noop _ (mkAbsR_rev_head c rest hc)

/-! Length facts about `dirnameCh`, used to show that the upward loop's fuel
budget always suffices: each `dirname` step either fixes the string or
strictly shortens it. -/

theorem dropWhile_length_le {α : Type} (q : α → Bool) (l : List α) :
    (l.dropWhile q).length ≤ l.length := by
  induction l with
  | nil => simp
  | cons a l ih =>
    by_cases h : q a = true
    · rw [List.dropWhile_cons_of_pos h]
      simp
      omega
    · rw [List.dropWhile_cons_of_neg h]

theorem dropWhile_eq_or_lt {α : Type} (q : α → Bool) (l : List α) :
    l.dropWhile q = l ∨ (l.dropWhile q).length < l.length := by
  cases l with
  | nil => exact Or.inl rfl
  | cons a l =>
    by_cases h : q a = true
    · right
      rw [List.dropWhile_cons_of_pos h]
      have := dropWhile_length_le q l
      simp
      omega
    · exact Or.inl (List.dropWhile_cons_of_neg h)

theorem dropWhile_head_not {α : Type} (q : α → Bool) (l : List α) (d : α) (t : List α)
    (h : l.dropWhile q = d :: t) : q d = false := by
  induction l with
  | nil => exact absurd h (by simp)
  | cons a l ih =>
    by_cases hq : q a = true
    · rw [List.dropWhile_cons_of_pos hq] at h
      exact ih h
    · rw [List.dropWhile_cons_of_neg hq] at h
      injection h with h1 _
      subst h1
      simp only [Bool.not_eq_true] at hq
      exact hq

theorem dropTrailing_length_le (q : Char → Bool) (p : PathStr) :
    (dropTrailing q p).length ≤ p.length := by
  unfold dropTrailing
  rw [List.length_reverse]
  calc (p.reverse.dropWhile q).length ≤ p.reverse.length := dropWhile_length_le q p.reverse
    _ = p.length := List.length_reverse p

theorem dropTrailing_eq_or_lt (q : Char → Bool) (p : PathStr) :
    dropTrailing q p = p ∨ (dropTrailing q p).length < p.length := by
  unfold dropTrailing
  cases dropWhile_eq_or_lt q p.reverse with
  | inl h =>
    left
    rw [h, List.reverse_reverse]
  | inr h =>
    right
    rw [List.length_reverse]
    have := List.length_reverse p
    omega

theorem dropTrailing_length_of_rev_head (q : Char → Bool) (u : PathStr) (d : Char)
    (t : List Char) (h : u.reverse = d :: t) (hq : q d = true) :
    (dropTrailing q u).length ≤ t.length := by
  unfold dropTrailing
  rw [h, List.dropWhile_cons_of_pos hq, List.length_reverse]
  exact dropWhile_length_le q t

theorem dirnameCh_length_le (p : PathStr) : (dirnameCh p).length ≤ p.length := by
  simp only [dirnameCh]
  split
  · exact le_trans (dropTrailing_length_le _ _) (dropTrailing_length_le _ _)
  · exact dropTrailing_length_le _ _

theorem dirnameCh_length_lt (p : PathStr) (h : dirnameCh p ≠ p) :
    (dirnameCh p).length < p.length := by
  revert h
  simp only [dirnameCh]
  split
  case isTrue hcond =>
    intro _
    have hXne : dropTrailing (fun c => c != '/') p ≠ [] := by
      intro he
      rw [he] at hcond
      simp at hcond
    have hrev : (dropTrailing (fun c => c != '/') p).reverse
        = p.reverse.dropWhile (fun c => c != '/') := by
      unfold dropTrailing
      rw [List.reverse_reverse]
    obtain ⟨d, t, hdt⟩ := List.exists_cons_of_ne_nil
      (show (dropTrailing (fun c => c != '/') p).reverse ≠ [] by simpa using hXne)
    have hd : (d != '/') = false := dropWhile_head_not _ _ d t (by rw [← hrev]; exact hdt)
    have hd' : (d == '/') = true := by
      simp at hd
      simp [hd]
    have hlen1 := dropTrailing_length_of_rev_head (fun c => c == '/')
      (dropTrailing (fun c => c != '/') p) d t hdt hd'
    have hlen2 : (dropTrailing (fun c => c != '/') p).length = t.length + 1 := by
      have h1 : (dropTrailing (fun c => c != '/') p).reverse.length = (d :: t).length := by
        rw [hdt]
      rw [List.length_reverse] at h1
      simpa using h1
    have hlen3 : (dropTrailing (fun c => c != '/') p).length ≤ p.length :=
      dropTrailing_length_le _ _
    omega
  case isFalse hcond =>
    intro h
    cases dropTrailing_eq_or_lt (fun c => c != '/') p with
    | inl he => exact absurd he h
    | inr hlt => exact hlt

/-! ## The upward walk of `ancestor_contains_file` -/

/-- The directories the unbounded upward walk examines, starting from the
directory whose parent components (nearest first, i.e. reversed) are `rcs`:
each proper ancestor in nearest-to-farthest order, with the root appearing
once — except that a walk that starts at the root itself (the starting
directory was an immediate child of `/`) examines the root twice. -/
def chainR : List PathStr → List PathStr
  | [] => [['/'], ['/']]
  | [c] => [mkAbsR [c], ['/']]
  | c :: rest => mkAbsR (c :: rest) :: chainR rest

theorem chainR_count_root (rcs : List PathStr) (hok : ∀ x ∈ rcs, compOk x) :
    (chainR rcs).count ['/'] = if rcs = [] then 2 else 1 := by
  match rcs with
  | [] => rfl
  | [c] =>
    have hc : compOk c := hok c (List.mem_cons_self c [])
    have hne : mkAbsR [c] ≠ ['/'] := by
      show '/' :: c ≠ ['/']
      intro he
      exact hc.1 (by injection he)
    show List.count ['/'] [mkAbsR [c], ['/']] = 1
    rw [List.count_cons, List.count_cons, List.count_nil]
    simp [hne]
  | c :: r :: rs =>
    have hih := chainR_count_root (r :: rs)
      (fun x hx => hok x (List.mem_cons_of_mem c hx))
    have hc : compOk c := hok c (List.mem_cons_self c (r :: rs))
    have hr : compOk r := hok r (List.mem_cons_of_mem c (List.mem_cons_self r rs))
    have hlen : 1 < (mkAbsR (c :: r :: rs)).length := by
      have h1 := mkAbsR_length_lt c (r :: rs) hc.1
      have h2 := mkAbsR_length_pos (r :: rs)
      omega
    have hne : mkAbsR (c :: r :: rs) ≠ ['/'] := by
      intro he
      rw [he] at hlen
      simp at hlen
    show List.count ['/'] (mkAbsR (c :: r :: rs) :: chainR (r :: rs)) = 1
    rw [List.count_cons]
    simp only [hih]
    simp [hne]

theorem find?_singleton_of_true {α : Type} (p : α → Bool) (a : α) (h : p a = true) :
    [a].find? p = some a :=
  List.find?_cons_of_pos _ h

theorem find?_singleton_of_false {α : Type} (p : α → Bool) (a : α) (h : p a = false) :
    [a].find? p = none := by
  have hh : ¬ p a = true := by simp [h]
  rw [List.find?_cons_of_neg _ hh]
  rfl

theorem find?_cons_false {α : Type} (p : α → Bool) (a : α) (l : List α) (h : p a = false) :
    (a :: l).find? p = l.find? p := by
  have hh : ¬ p a = true := by simp [h]
  rw [List.find?_cons_of_neg _ hh]

/-- The loop's result is always the first examined directory that directly
contains a marker (as an `Option`), whatever the depth argument: every
examined directory except possibly the last was marker-free. -/
theorem acfLoop_fst_find (fs : FS) (files_n : List PathStr) (depth : Option Int) :
    ∀ (fuel : Nat) (t : PathStr) (c : Int) (b : Bool),
      (acfLoop fs files_n depth fuel t c b).1 =
        (acfLoop fs files_n depth fuel t c b).2.find?
          (fun d => files_n.any (fun f => existsPath fs (joinOne d f))) := by
  intro fuel
  induction fuel with
  | zero => intro t c b; rfl
  | succ k ih =>
    intro t c b
    unfold acfLoop
    cases hfind : (files_n.find? (fun f => existsPath fs (joinOne t f))).isSome with
    | true =>
      have hany : files_n.any (fun f => existsPath fs (joinOne t f)) = true := by
        rw [← find?_isSome_eq_any]
        exact hfind
      show (some t : Option PathStr) = ([t] : List PathStr).find?
        (fun d => files_n.any (fun f => existsPath fs (joinOne d f)))
      rw [find?_singleton_of_true
        (fun d => files_n.any (fun f => existsPath fs (joinOne d f))) t hany]
    | false =>
      have hany : files_n.any (fun f => existsPath fs (joinOne t f)) = false := by
        rw [← find?_isSome_eq_any]
        exact hfind
      simp only [Bool.false_eq_true, if_false]
      by_cases hg : depthGuard depth (c + 1) = true
      · rw [if_pos hg]
        show (none : Option PathStr) = ([t] : List PathStr).find?
          (fun d => files_n.any (fun f => existsPath fs (joinOne d f)))
        rw [find?_singleton_of_false
          (fun d => files_n.any (fun f => existsPath fs (joinOne d f))) t hany]
      · rw [if_neg hg]
        by_cases hroot : dirnameCh (dirnameCh t) = dirnameCh t
        · rw [if_pos hroot]
          cases b with
          | true =>
            show (none : Option PathStr) = ([t] : List PathStr).find?
              (fun d => files_n.any (fun f => existsPath fs (joinOne d f)))
            rw [find?_singleton_of_false
              (fun d => files_n.any (fun f => existsPath fs (joinOne d f))) t hany]
          | false =>
            show (acfLoop fs files_n depth k (dirnameCh t) (c + 1) true).1
              = (t :: (acfLoop fs files_n depth k (dirnameCh t) (c + 1) true).2).find?
                  (fun d => files_n.any (fun f => existsPath fs (joinOne d f)))
            rw [find?_cons_false
              (fun d => files_n.any (fun f => existsPath fs (joinOne d f))) t _ hany]
            exact ih (dirnameCh t) (c + 1) true
        · rw [if_neg hroot]
          show (acfLoop fs files_n depth k (dirnameCh t) (c + 1) b).1
            = (t :: (acfLoop fs files_n depth k (dirnameCh t) (c + 1) b).2).find?
                (fun d => files_n.any (fun f => existsPath fs (joinOne d f)))
          rw [find?_cons_false
            (fun d => files_n.any (fun f => existsPath fs (joinOne d f))) t _ hany]
          exact ih (dirnameCh t) (c + 1) b

/-- With at least one unit of fuel, the loop examines its starting directory
first. -/
theorem acfLoop_examined_head (fs : FS) (files_n : List PathStr) (depth : Option Int)
    (fuel : Nat) (t : PathStr) (c : Int) (b : Bool) :
    (acfLoop fs files_n depth (fuel + 1) t c b).2.head? = some t := by
  unfold acfLoop
  cases hfind : (files_n.find? (fun f => existsPath fs (joinOne t f))).isSome with
  | true => rfl
  | false =>
    simp only [Bool.false_eq_true, if_false]
    by_cases hg : depthGuard depth (c + 1) = true
    · rw [if_pos hg]
      rfl
    · rw [if_neg hg]
      by_cases hroot : dirnameCh (dirnameCh t) = dirnameCh t
      · rw [if_pos hroot]
        cases b <;> rfl
      · rw [if_neg hroot]
        rfl

/-- Each examined directory after the first is the `os.path.dirname` of the
previous one: the walk moves strictly upward, nearest ancestor first. -/
theorem acfLoop_examined_chain (fs : FS) (files_n : List PathStr) (depth : Option Int) :
    ∀ (fuel : Nat) (t : PathStr) (c : Int) (b : Bool),
      List.Chain' (fun a b2 => b2 = dirnameCh a)
        (acfLoop fs files_n depth fuel t c b).2 := by
  intro fuel
  induction fuel with
  | zero => intro t c b; simp [acfLoop]
  | succ k ih =>
    intro t c b
    unfold acfLoop
    cases hfind : (files_n.find? (fun f => existsPath fs (joinOne t f))).isSome with
    | true => simp
    | false =>
      simp only [Bool.false_eq_true, if_false]
      by_cases hg : depthGuard depth (c + 1) = true
      · rw [if_pos hg]
        simp
      · rw [if_neg hg]
        have hcons : ∀ (b2 : Bool), List.Chain' (fun a b3 => b3 = dirnameCh a)
            (t :: (acfLoop fs files_n depth k (dirnameCh t) (c + 1) b2).2) := by
          intro b2
          rw [List.chain'_cons']
          refine ⟨?_, ih (dirnameCh t) (c + 1) b2⟩
          intro y hy
          cases k with
          | zero => simp [acfLoop] at hy
          | succ k2 =>
            rw [acfLoop_examined_head fs files_n depth k2 (dirnameCh t) (c + 1) b2] at hy
            have hy2 := hy
            simp at hy2
            exact hy2.symm
        by_cases hroot : dirnameCh (dirnameCh t) = dirnameCh t
        · rw [if_pos hroot]
          cases b with
          | true => simp
          | false => exact hcons true
        · rw [if_neg hroot]
          exact hcons b

/-- The `while True` loop terminates within the supplied budget: any fuel of
at least `|test_p| + 2` (one more unit when the latch is already set) computes
the same result, because each `dirname` step either strictly shortens the
path or fixes it, and a fixed path trips the `already_at_root` latch. -/
theorem acfLoop_fuel_indep (fs : FS) (files_n : List PathStr) (depth : Option Int) :
    ∀ (n : Nat) (t : PathStr) (c : Int) (b : Bool) (fuel1 fuel2 : Nat),
      fuel1 ≤ n →
      t.length + (if b then 1 else 2) ≤ fuel1 →
      t.length + (if b then 1 else 2) ≤ fuel2 →
      acfLoop fs files_n depth fuel1 t c b = acfLoop fs files_n depth fuel2 t c b := by
  intro n
  induction n with
  | zero =>
    intro t c b f1 f2 h1 h2 h3
    cases b <;> simp at h2 <;> omega
  | succ m ih =>
    intro t c b f1 f2 h1 h2 h3
    obtain ⟨k1, rfl⟩ : ∃ k, f1 = k + 1 := ⟨f1 - 1, by cases b <;> simp at h2 <;> omega⟩
    obtain ⟨k2, rfl⟩ : ∃ k, f2 = k + 1 := ⟨f2 - 1, by cases b <;> simp at h3 <;> omega⟩
    unfold acfLoop
    cases hfind : (files_n.find? (fun f => existsPath fs (joinOne t f))).isSome with
    | true => rfl
    | false =>
      simp only [Bool.false_eq_true, if_false]
      by_cases hg : depthGuard depth (c + 1) = true
      · rw [if_pos hg, if_pos hg]
      · rw [if_neg hg, if_neg hg]
        have hle : (dirnameCh t).length ≤ t.length := dirnameCh_length_le t
        by_cases hroot : dirnameCh (dirnameCh t) = dirnameCh t
        · rw [if_pos hroot, if_pos hroot]
          cases b with
          | true => rfl
          | false =>
            have harg := ih (dirnameCh t) (c + 1) true k1 k2
              (by omega) (by simp; simp at h2; omega) (by simp; simp at h3; omega)
            rw [harg]
        · rw [if_neg hroot, if_neg hroot]
          have hne : dirnameCh t ≠ t := by
            intro he
            apply hroot
            rw [he]
            exact he
          have hlt : (dirnameCh t).length < t.length := dirnameCh_length_lt t hne
          have harg := ih (dirnameCh t) (c + 1) b k1 k2
            (by omega)
            (by cases b <;> simp <;> simp at h2 <;> omega)
            (by cases b <;> simp <;> simp at h3 <;> omega)
          rw [harg]

/-- Once the walk has reached the root with the `already_at_root` latch set,
one more directory test happens and the loop returns the absence signal
(for any falsy depth, whose guard never fires). -/
theorem acfLoop_root_latched (fs : FS) (files_n : List PathStr) (depth : Option Int)
    (hguard : ∀ ci : Int, depthGuard depth ci = false) (fuel : Nat) (count : Int)
    (h : ∀ f ∈ files_n, existsPath fs (joinOne ['/'] f) = false) :
    acfLoop fs files_n depth (fuel + 1) ['/'] count true = (none, [['/']]) := by
  have hfind : (files_n.find? (fun f => existsPath fs (joinOne ['/'] f))).isSome = false := by
    rw [find?_isSome_eq_any]
    simp only [List.any_eq_false]
    intro f hf
    simp [h f hf]
  unfold acfLoop
  rw [hfind]
  simp only [Bool.false_eq_true, if_false]
  rw [hguard (count + 1)]
  simp [show dirnameCh ['/'] = ['/'] from rfl]

/-- The unbounded upward walk from a canonical absolute directory: no marker
anywhere on the chain, so the walk returns the absence signal after examining
exactly the directories of `chainR`. -/
theorem acfLoop_chain (fs : FS) (files_n : List PathStr) (depth : Option Int)
    (hguard : ∀ ci : Int, depthGuard depth ci = false) :
    ∀ (rcs : List PathStr) (fuel : Nat) (count : Int),
      (∀ x ∈ rcs, compOk x) →
      rcs.length + 2 ≤ fuel →
      (∀ d ∈ chainR rcs, ∀ f ∈ files_n, existsPath fs (joinOne d f) = false) →
      acfLoop fs files_n depth fuel (mkAbsR rcs) count false = (none, chainR rcs) := by
  intro rcs
  induction rcs with
  | nil =>
    intro fuel count _ hfuel hnm
    obtain ⟨k, rfl⟩ : ∃ k, fuel = k + 1 + 1 := ⟨fuel - 2, by omega⟩
    have hroot : ∀ f ∈ files_n, existsPath fs (joinOne ['/'] f) = false := by
      intro f hf
      exact hnm ['/'] (List.mem_cons_self _ _) f hf
    have hfind : (files_n.find? (fun f => existsPath fs (joinOne ['/'] f))).isSome = false := by
      rw [find?_isSome_eq_any]
      simp only [List.any_eq_false]
      intro f hf
      simp [hroot f hf]
    show acfLoop fs files_n depth (k + 1 + 1) (mkAbsR []) count false = (none, chainR [])
    unfold acfLoop
    rw [show mkAbsR [] = ['/'] from rfl, hfind]
    simp only [Bool.false_eq_true, if_false]
    rw [hguard (count + 1)]
    simp only [Bool.false_eq_true, if_false]
    rw [if_pos (show dirnameCh (dirnameCh ['/']) = dirnameCh ['/'] from rfl)]
    rw [show dirnameCh ['/'] = ['/'] from rfl]
    rw [acfLoop_root_latched fs files_n depth hguard k (count + 1) hroot]
    rfl
  | cons c rest ih =>
    intro fuel count hok hfuel hnm
    have hc : compOk c := hok c (List.mem_cons_self c rest)
    have hrest : ∀ x ∈ rest, compOk x := fun x hx => hok x (List.mem_cons_of_mem c hx)
    have hhead : mkAbsR (c :: rest) ∈ chainR (c :: rest) := by
      cases rest with
      | nil => exact List.mem_cons_self _ _
      | cons r rs => exact List.mem_cons_self _ _
    have hfind : (files_n.find?
        (fun f => existsPath fs (joinOne (mkAbsR (c :: rest)) f))).isSome = false := by
      rw [find?_isSome_eq_any]
      simp only [List.any_eq_false]
      intro f hf
      simp [hnm (mkAbsR (c :: rest)) hhead f hf]
    have hdirname : dirnameCh (mkAbsR (c :: rest)) = mkAbsR rest :=
      dirnameCh_mkAbsR_cons c rest hc hrest
    cases rest with
    | nil =>
      have hroot : ∀ f ∈ files_n, existsPath fs (joinOne ['/'] f) = false := by
        intro f hf
        exact hnm ['/'] (List.mem_cons_of_mem _ (List.mem_cons_self _ _)) f hf
      obtain ⟨k2, rfl⟩ : ∃ k2, fuel = k2 + 1 + 1 := ⟨fuel - 2, by omega⟩
      show acfLoop fs files_n depth (k2 + 1 + 1) (mkAbsR [c]) count false = (none, chainR [c])
      unfold acfLoop
      rw [hfind]
      simp only [Bool.false_eq_true, if_false]
      rw [hguard (count + 1)]
      simp only [Bool.false_eq_true, if_false]
      rw [hdirname]
      rw [if_pos (show dirnameCh (mkAbsR []) = mkAbsR [] from rfl)]
      rw [show mkAbsR [] = ['/'] from rfl]
      rw [acfLoop_root_latched fs files_n depth hguard k2 (count + 1) hroot]
      rfl
    | cons r rs =>
      have hr : compOk r := hrest r (List.mem_cons_self r rs)
      have hnotroot : ¬ (dirnameCh (mkAbsR (r :: rs)) = mkAbsR (r :: rs)) := by
        rw [dirnameCh_mkAbsR_cons r rs hr (fun x hx => hrest x (List.mem_cons_of_mem r hx))]
        intro he
        have := mkAbsR_length_lt r rs hr.1
        rw [he] at this
        omega
      have htail : ∀ d ∈ chainR (r :: rs), ∀ f ∈ files_n,
          existsPath fs (joinOne d f) = false := by
        intro d hd f hf
        refine hnm d ?_ f hf
        show d ∈ mkAbsR (c :: r :: rs) :: chainR (r :: rs)
        exact List.mem_cons_of_mem _ hd
      obtain ⟨k, rfl⟩ : ∃ k, fuel = k + 1 := ⟨fuel - 1, by omega⟩
      show acfLoop fs files_n depth (k + 1) (mkAbsR (c :: r :: rs)) count false
          = (none, chainR (c :: r :: rs))
      unfold acfLoop
      rw [hfind]
      simp only [Bool.false_eq_true, if_false]
      rw [hguard (count + 1)]
      simp only [Bool.false_eq_true, if_false]
      rw [hdirname]
      rw [if_neg hnotroot]
      rw [ih k (count + 1) (fun x hx => hrest x hx) (by simp at hfuel ⊢; omega) htail]
      rfl

/-- Shared normalisation facts for a canonical absolute starting directory:
the trailing-separator strip is a no-op, the not-a-directory fallback is not
taken, and the loop starts at the parent directory. -/
theorem acfStart_canonical (fs : FS) (ds : List PathStr) (leaf : PathStr)
    (hok : ∀ c ∈ ds ++ [leaf], compOk c)
    (hdir : isdirPath fs (mkAbs (ds ++ [leaf])) = true) :
    dirnameCh (acfStart fs (mkAbs (ds ++ [leaf]))) = mkAbsR ds.reverse := by
  have hleaf : compOk leaf := hok leaf (by simp)
  have hdsrev : ∀ x ∈ ds.reverse, compOk x := fun x hx =>
    hok x (List.mem_append_left _ (List.mem_reverse.mp hx))
  have habs : mkAbs (ds ++ [leaf]) = mkAbsR (leaf :: ds.reverse) := by
    unfold mkAbs
    rw [List.reverse_append]
    rfl
  have hstrip : rstripSlashes (mkAbs (ds ++ [leaf])) = mkAbs (ds ++ [leaf]) := by
    rw [habs]
    exact rstripSlashes_mkAbsR_cons leaf ds.reverse hleaf
  have hstart : acfStart fs (mkAbs (ds ++ [leaf])) = mkAbs (ds ++ [leaf]) := by
    unfold acfStart
    rw [hstrip, hdir]
    simp
  rw [hstart, habs]
  exact dirnameCh_mkAbsR_cons leaf ds.reverse hleaf hdsrev

/-! ## Claims C6, C7, C8, C10: the ancestor-marker search -/

/-- C6 (amended): for every existing directory starting path and every falsy
`depth` (`None` or `0`), `ancestor_contains_file` terminates and behaves as
follows: the upward walk starts at the parent of the normalised starting path,
proceeds strictly upward by iterated `dirname` (nearest-to-farthest), returns
the first examined directory that directly contains a marker — the absence
signal when none does — and computes the same answer under any loop budget of
at least `length + 2`, so the `while True` loop needs only finitely many
iterations.  For a canonical absolute starting directory none of whose
ancestors contains a marker, the examined directories are exactly the proper
ancestors, and the filesystem root is examined exactly once when the start is
at least two levels below the root but twice when the start is an immediate
child of the root. -/
theorem ancestor_unbounded_walk (fs : FS) (files_n : List PathStr)
    (depth : Option Int) (path_p : PathStr)
    (hfalsy : depth = none ∨ depth = some 0)
    (hex : existsPath fs path_p = true)
    (hdir : isdirPath fs path_p = true) :
    (ancestor_contains_file fs path_p files_n depth
        = Except.ok ((ancestor_examined fs path_p files_n depth).find?
            (fun d => files_n.any (fun f => existsPath fs (joinOne d f))))) ∧
    (ancestor_examined fs path_p files_n depth).head?
        = some (dirnameCh (acfStart fs path_p)) ∧
    List.Chain' (fun a b => b = dirnameCh a)
        (ancestor_examined fs path_p files_n depth) ∧
    (∀ fuel : Nat, (dirnameCh (acfStart fs path_p)).length + 1 + 1 ≤ fuel →
        acfLoop fs files_n depth fuel (dirnameCh (acfStart fs path_p)) 0 false
          = acfLoop fs files_n depth
              ((dirnameCh (acfStart fs path_p)).length + 1 + 1)
              (dirnameCh (acfStart fs path_p)) 0 false) ∧
    (∀ (ds : List PathStr) (leaf : PathStr),
        path_p = mkAbs (ds ++ [leaf]) →
        (∀ c ∈ ds ++ [leaf], compOk c) →
        (∀ d ∈ chainR ds.reverse, ∀ f ∈ files_n,
          existsPath fs (joinOne d f) = false) →
        ancestor_contains_file fs path_p files_n depth = Except.ok none ∧
        ancestor_examined fs path_p files_n depth = chainR ds.reverse ∧
        (chainR ds.reverse).count ['/'] = (if ds = [] then 2 else 1)) := by
  have hguard : ∀ ci : Int, depthGuard depth ci = false := by
    rcases hfalsy with rfl | rfl
    · intro ci
      rfl
    · intro ci
      simp [depthGuard]
  refine ⟨?_, ?_, ?_, ?_, ?_⟩
  · unfold ancestor_contains_file ancestor_examined
    rw [hex, hdir, if_neg (by simp), if_neg (by simp)]
    exact congrArg Except.ok (acfLoop_fst_find fs files_n depth _ _ 0 false)
  · unfold ancestor_examined
    exact acfLoop_examined_head fs files_n depth
      ((dirnameCh (acfStart fs path_p)).length + 1) (dirnameCh (acfStart fs path_p)) 0 false
  · unfold ancestor_examined
    exact acfLoop_examined_chain fs files_n depth _ _ 0 false
  · intro fuel hfuel
    exact acfLoop_fuel_indep fs files_n depth fuel
      (dirnameCh (acfStart fs path_p)) 0 false fuel
      ((dirnameCh (acfStart fs path_p)).length + 1 + 1)
      (le_refl fuel) (by simp; omega) (by simp)
  · intro ds leaf hpath hok hnm
    subst hpath
    have hdsrev : ∀ x ∈ ds.reverse, compOk x := fun x hx =>
      hok x (List.mem_append_left _ (List.mem_reverse.mp hx))
    have hdn := acfStart_canonical fs ds leaf hok hdir
    have hfuel : ds.reverse.length + 2 ≤ (mkAbsR ds.reverse).length + 1 + 1 := by
      have := mkAbsR_length_ge ds.reverse
      omega
    have hloop := acfLoop_chain fs files_n depth hguard ds.reverse
      ((mkAbsR ds.reverse).length + 1 + 1) 0 hdsrev hfuel hnm
    refine ⟨?_, ?_, ?_⟩
    · unfold ancestor_contains_file
      rw [hex, hdir, if_neg (by simp), if_neg (by simp), hdn, hloop]
    · unfold ancestor_examined
      rw [hdn, hloop]
    · have hcnt := chainR_count_root ds.reverse hdsrev
      rw [hcnt]
      by_cases hds : ds = []
      · simp [hds]
      · rw [if_neg (by simpa using hds), if_neg hds]

/-- With a positive depth bound, each loop iteration examines one directory
and increments the counter, so at most `d - c` directories are examined. -/
theorem acfLoop_examined_le (fs : FS) (files_n : List PathStr) (d : Int) :
    ∀ (fuel : Nat) (t : PathStr) (c : Int) (b : Bool), 0 < d → c < d →
      ((acfLoop fs files_n (some d) fuel t c b).2.length : Int) ≤ d - c := by
  intro fuel
  induction fuel with
  | zero =>
    intro t c b hd hc
    simp [acfLoop]
    omega
  | succ k ih =>
    intro t c b hd hc
    unfold acfLoop
    cases hfind : (files_n.find? (fun f => existsPath fs (joinOne t f))).isSome with
    | true => simp; omega
    | false =>
      simp only [Bool.false_eq_true, if_false]
      cases hguard : depthGuard (some d) (c + 1) with
      | true =>
        rw [if_pos (by simp [hguard])]
        simp
        omega
      | false =>
        have hcd : c + 1 < d := by
          have hguard' : (d != 0 && decide (d ≤ c + 1)) = false := hguard
          have hne : (d != 0) = true := by simp; omega
          rw [hne] at hguard'
          simp at hguard'
          omega
        rw [if_neg (by simp [hguard])]
        by_cases hroot : dirnameCh (dirnameCh t) = dirnameCh t
        · rw [if_pos hroot]
          cases b with
          | true => simp; omega
          | false =>
            have := ih (dirnameCh t) (c + 1) true hd hcd
            simp
            omega
        · rw [if_neg hroot]
          have := ih (dirnameCh t) (c + 1) b hd hcd
          simp
          omega

/-- C7: with `depth=1` the walk inspects exactly the immediate parent: it
returns the parent precisely when some marker exists directly there, and the
absence signal otherwise (in particular when markers exist only two or more
levels up); more generally a positive `depth` bounds the number of directories
the walk examines. -/
theorem ancestor_depth_one (fs : FS) (files_n : List PathStr)
    (ds : List PathStr) (leaf : PathStr)
    (hok : ∀ c ∈ ds ++ [leaf], compOk c)
    (hex : existsPath fs (mkAbs (ds ++ [leaf])) = true)
    (hdir : isdirPath fs (mkAbs (ds ++ [leaf])) = true) :
    (ancestor_contains_file fs (mkAbs (ds ++ [leaf])) files_n (some 1) =
      Except.ok (if files_n.any (fun f => existsPath fs (joinOne (mkAbs ds) f))
                 then some (mkAbs ds) else none)) ∧
    (∀ (q : PathStr) (d : Int), 0 < d →
      ((ancestor_examined fs q files_n (some d)).length : Int) ≤ d) := by
  constructor
  · have hdn := acfStart_canonical fs ds leaf hok hdir
    unfold ancestor_contains_file
    rw [hex, hdir, if_neg (by simp), if_neg (by simp), hdn]
    simp only [mkAbs]
    unfold acfLoop
    rw [find?_isSome_eq_any]
    cases hany : files_n.any (fun f => existsPath fs (joinOne (mkAbsR ds.reverse) f)) with
    | true => rfl
    | false => rfl
  · intro q d hd
    have := acfLoop_examined_le fs files_n d
      ((dirnameCh (acfStart fs q)).length + 1 + 1) (dirnameCh (acfStart fs q)) 0 false hd hd
    unfold ancestor_examined
    omega

/-- One loop iteration starting at count `0`: any negative depth triggers the
depth guard at exactly the same moment as `depth=1`. -/
theorem acfLoop_neg_one_step (fs : FS) (files_n : List PathStr) (d : Int) (hd : d < 0)
    (fuel : Nat) (t : PathStr) :
    acfLoop fs files_n (some d) (fuel + 1) t 0 false =
      acfLoop fs files_n (some 1) (fuel + 1) t 0 false := by
  unfold acfLoop
  cases hfind : (files_n.find? (fun f => existsPath fs (joinOne t f))).isSome with
  | true => rfl
  | false =>
    have h1 : depthGuard (some d) (0 + 1) = true := by
      unfold depthGuard
      simp only [Bool.and_eq_true, bne_iff_ne, ne_eq, decide_eq_true_eq]
      omega
    simp only [Bool.false_eq_true, if_false]
    rw [if_pos h1, if_pos (show depthGuard (some 1) (0 + 1) = true by decide)]

/-- C10: a negative `depth` is truthy and the counter reaches it after the
first examination, so `ancestor_contains_file` behaves exactly as with
`depth=1` (only the immediate parent is ever inspected). -/
theorem ancestor_negative_depth (fs : FS) (path_p : PathStr) (files_n : List PathStr)
    (d : Int) (hd : d < 0) :
    ancestor_contains_file fs path_p files_n (some d) =
      ancestor_contains_file fs path_p files_n (some 1) := by
  unfold ancestor_contains_file
  cases hex : existsPath fs path_p with
  | false => rfl
  | true =>
    cases hdir : isdirPath fs path_p with
    | false => rfl
    | true =>
      rw [acfLoop_neg_one_step fs files_n d hd
        ((dirnameCh (acfStart fs path_p)).length + 1) (dirnameCh (acfStart fs path_p))]

/-- C8 (amended): a starting path that is not a directory fails the
`os.path.isdir` precondition assert; the documented fall-back to the
containing directory is unreachable. -/
theorem ancestor_nondir_assert (fs : FS) (path_p : PathStr) (files_n : List PathStr)
    (depth : Option Int) (h : isdirPath fs path_p = false) :
    ancestor_contains_file fs path_p files_n depth = Except.error Err.assertionError := by
  unfold ancestor_contains_file
  cases hex : existsPath fs path_p with
  | false => rfl
  | true =>
    rw [h]
    rfl

/-! Concrete filesystems for the ancestor-search claims. -/

/-- `/a` is a directory containing subdirectory `b` and marker file `m`. -/
def fsAnc : FS :=
  ⟨[], Node.dir 4096 [(['a'], Node.dir 4096
    [(['b'], Node.dir 4096 []), (['m'], Node.file 0)])]⟩

/-- `/f` is a regular file at the root. -/
def fsFile : FS := ⟨[], Node.dir 4096 [(['f'], Node.file 0)]⟩

/-- C6 (counterexample): starting from `/a`, an existing directory that is an
immediate child of the root, the unbounded upward walk examines the filesystem
root twice, not exactly once. -/
theorem ancestor_root_examined_twice :
    isdirPath fsAnc ['/', 'a'] = true ∧
    ancestor_examined fsAnc ['/', 'a'] [['z']] none = [['/'], ['/']] :=
  ⟨rfl, rfl⟩

/-- C6 (witness). -/
theorem ancestor_unbounded_walk_witness :
    ((none : Option Int) = none ∨ (none : Option Int) = some 0) ∧
    existsPath fsAnc ['/', 'a', '/', 'b'] = true ∧
    isdirPath fsAnc ['/', 'a', '/', 'b'] = true ∧
    ((ancestor_contains_file fsAnc ['/', 'a', '/', 'b'] [['z']] none
        = Except.ok ((ancestor_examined fsAnc ['/', 'a', '/', 'b'] [['z']] none).find?
            (fun d => [['z']].any (fun f => existsPath fsAnc (joinOne d f))))) ∧
      (ancestor_examined fsAnc ['/', 'a', '/', 'b'] [['z']] none).head?
          = some (dirnameCh (acfStart fsAnc ['/', 'a', '/', 'b'])) ∧
      List.Chain' (fun a b => b = dirnameCh a)
          (ancestor_examined fsAnc ['/', 'a', '/', 'b'] [['z']] none) ∧
      (∀ fuel : Nat,
          (dirnameCh (acfStart fsAnc ['/', 'a', '/', 'b'])).length + 1 + 1 ≤ fuel →
          acfLoop fsAnc [['z']] none fuel
              (dirnameCh (acfStart fsAnc ['/', 'a', '/', 'b'])) 0 false
            = acfLoop fsAnc [['z']] none
                ((dirnameCh (acfStart fsAnc ['/', 'a', '/', 'b'])).length + 1 + 1)
                (dirnameCh (acfStart fsAnc ['/', 'a', '/', 'b'])) 0 false) ∧
      (∀ (ds : List PathStr) (leaf : PathStr),
          ['/', 'a', '/', 'b'] = mkAbs (ds ++ [leaf]) →
          (∀ c ∈ ds ++ [leaf], compOk c) →
          (∀ d ∈ chainR ds.reverse, ∀ f ∈ ([['z']] : List PathStr),
            existsPath fsAnc (joinOne d f) = false) →
          ancestor_contains_file fsAnc ['/', 'a', '/', 'b'] [['z']] none
              = Except.ok none ∧
          ancestor_examined fsAnc ['/', 'a', '/', 'b'] [['z']] none = chainR ds.reverse ∧
          (chainR ds.reverse).count ['/'] = (if ds = [] then 2 else 1))) :=
  ⟨Or.inl rfl, by rfl, by rfl,
   ancestor_unbounded_walk fsAnc [['z']] none ['/', 'a', '/', 'b']
     (Or.inl rfl) (by rfl) (by rfl)⟩

/-- C7 (witness): from `/a/b`, with the marker directly in the parent `/a`,
depth `1` returns the parent. -/
theorem ancestor_depth_one_witness :
    (∀ c ∈ ([['a']] ++ [['b']] : List PathStr), compOk c) ∧
    existsPath fsAnc (mkAbs ([['a']] ++ [['b']])) = true ∧
    isdirPath fsAnc (mkAbs ([['a']] ++ [['b']])) = true ∧
    ((ancestor_contains_file fsAnc (mkAbs ([['a']] ++ [['b']])) [['m']] (some 1)
      = Except.ok (if ([['m']] : List PathStr).any
          (fun f => existsPath fsAnc (joinOne (mkAbs [['a']]) f))
        then some (mkAbs [['a']]) else none)) ∧
     (∀ (q : PathStr) (d : Int), 0 < d →
      ((ancestor_examined fsAnc q [['m']] (some d)).length : Int) ≤ d)) :=
  ⟨by decide, by rfl, by rfl,
   ancestor_depth_one fsAnc [['m']] [['a']] ['b'] (by decide) (by rfl) (by rfl)⟩

/-- C10 (witness). -/
theorem ancestor_negative_depth_witness :
    ((-1 : Int) < 0) ∧
    ancestor_contains_file fsAnc ['/', 'a', '/', 'b'] [['m']] (some (-1)) =
      ancestor_contains_file fsAnc ['/', 'a', '/', 'b'] [['m']] (some 1) :=
  ⟨by decide, ancestor_negative_depth fsAnc ['/', 'a', '/', 'b'] [['m']] (-1) (by decide)⟩

/-- C8 (counterexample): `/f` exists but is a regular file; the search fails
with the assertion error instead of starting from the containing directory. -/
theorem ancestor_nondir_start_fails :
    existsPath fsFile ['/', 'f'] = true ∧
    isdirPath fsFile ['/', 'f'] = false ∧
    ancestor_contains_file fsFile ['/', 'f'] [['m']] none
      = Except.error Err.assertionError :=
  ⟨rfl, rfl, rfl⟩

/-- C8 (witness). -/
theorem ancestor_nondir_assert_witness :
    isdirPath fsFile ['/', 'f'] = false ∧
    ancestor_contains_file fsFile ['/', 'f'] [['m']] none
      = Except.error Err.assertionError :=
  ⟨by rfl, ancestor_nondir_assert fsFile ['/', 'f'] [['m']] none (by rfl)⟩

/-! ## Claim C4: grouping by size -/

theorem flattenVals_dictAppend (out : List (Nat × List PathStr)) (k : Nat) (v : PathStr) :
    (flattenVals (dictAppend out k v)).Perm (flattenVals out ++ [v]) := by
  induction out with
  | nil => simp [dictAppend, flattenVals]
  | cons e rest ih =>
    obtain ⟨k', vs⟩ := e
    show (flattenVals (if k' = k then (k', vs ++ [v]) :: rest
        else (k', vs) :: dictAppend rest k v)).Perm _
    by_cases hk : k' = k
    · rw [if_pos hk]
      show ((vs ++ [v]) ++ flattenVals rest).Perm ((vs ++ flattenVals rest) ++ [v])
      rw [List.append_assoc, List.append_assoc]
      exact List.Perm.append_left vs List.perm_append_comm
    · rw [if_neg hk]
      show (vs ++ flattenVals (dictAppend rest k v)).Perm ((vs ++ flattenVals rest) ++ [v])
      rw [List.append_assoc]
      exact List.Perm.append_left vs ih

theorem sizeLoop_perm (fs : FS) (path_d : PathStr) :
    ∀ (names : List PathStr) (out m : List (Nat × List PathStr)),
      sizeLoop fs path_d names out = Except.ok m →
      (flattenVals m).Perm (flattenVals out ++ names.map (fun n => joinOne path_d n)) := by
  intro names
  induction names with
  | nil =>
    intro out m h
    have h' : Except.ok out = Except.ok m := h
    injection h' with h''
    subst h''
    simp
  | cons n rest ih =>
    intro out m h
    unfold sizeLoop at h
    cases hg : getsizePath fs (joinOne path_d n) with
    | error e =>
      rw [hg] at h
      exact Except.noConfusion h
    | ok sz =>
      rw [hg] at h
      have hperm := ih (dictAppend out sz (joinOne path_d n)) m h
      refine hperm.trans ?_
      have h2 := (flattenVals_dictAppend out sz (joinOne path_d n)).append_right
        (rest.map (fun x => joinOne path_d x))
      have h3 : ((flattenVals out ++ [joinOne path_d n])
            ++ rest.map (fun x => joinOne path_d x))
          = flattenVals out ++ (n :: rest).map (fun x => joinOne path_d x) := by
        simp
      exact h3 ▸ h2

/-- C4 (amended): `dir_files_keyed_by_size` buckets every immediate entry of
the directory — regular files and subdirectory entries alike — by its reported
byte size, without traversing into subdirectories; flattening the buckets
recovers exactly the listed entries (joined to full paths), none lost or
duplicated. -/
theorem dir_files_keyed_by_size_round_trip (fs : FS) (path_d : PathStr)
    (names : List PathStr) (m : List (Nat × List PathStr))
    (hls : listdirPath fs path_d = Except.ok names)
    (hm : dir_files_keyed_by_size fs path_d = Except.ok m) :
    (flattenVals m).Perm (names.map (fun n => joinOne path_d n)) := by
  unfold dir_files_keyed_by_size at hm
  cases hex : existsPath fs path_d with
  | false =>
    rw [hex] at hm
    exact Except.noConfusion hm
  | true =>
    rw [hex] at hm
    rw [hls] at hm
    have hm' : sizeLoop fs path_d names [] = Except.ok m := hm
    have := sizeLoop_perm fs path_d names [] m hm'
    simpa using this

/-- `/d` contains only the subdirectory `s` (whose reported size is 4096). -/
def fsSub : FS := ⟨[], Node.dir 4096 [(['d'], Node.dir 4096
  [(['s'], Node.dir 4096 [])])]⟩

/-- C4 (counterexample): the subdirectory entry `/d/s` is not ignored — it is
listed, sized and bucketed under its own reported size. -/
theorem dir_files_subdir_bucketed :
    isdirPath fsSub ['/', 'd', '/', 's'] = true ∧
    dir_files_keyed_by_size fsSub ['/', 'd'] =
      Except.ok [(4096, [['/', 'd', '/', 's']])] :=
  ⟨rfl, rfl⟩

/-- `/d` contains a subdirectory `s` and files `x`, `y` of size 10. -/
def fsSizes : FS := ⟨[], Node.dir 4096 [(['d'], Node.dir 4096
  [(['s'], Node.dir 4096 []), (['x'], Node.file 10), (['y'], Node.file 10)])]⟩

/-- C4 (witness). -/
theorem dir_files_keyed_by_size_round_trip_witness :
    listdirPath fsSizes ['/', 'd'] = Except.ok [['s'], ['x'], ['y']] ∧
    dir_files_keyed_by_size fsSizes ['/', 'd'] =
      Except.ok [(4096, [['/', 'd', '/', 's']]),
                 (10, [['/', 'd', '/', 'x'], ['/', 'd', '/', 'y']])] ∧
    (flattenVals [(4096, [['/', 'd', '/', 's']]),
                  (10, [['/', 'd', '/', 'x'], ['/', 'd', '/', 'y']])]).Perm
      (([['s'], ['x'], ['y']] : List PathStr).map (fun n => joinOne ['/', 'd'] n)) :=
  ⟨by rfl, by rfl,
   dir_files_keyed_by_size_round_trip fsSizes ['/', 'd'] [['s'], ['x'], ['y']]
     [(4096, [['/', 'd', '/', 's']]), (10, [['/', 'd', '/', 'x'], ['/', 'd', '/', 'y']])]
     (by rfl) (by rfl)⟩

/-! ## Claim C3: `lock_dir` -/

/-- C3: `lock_dir` performs no filesystem mutation at all — its body consists
solely of the two precondition asserts — so whenever it succeeds the
filesystem state is returned unchanged (no permission change happens). -/
theorem lock_dir_no_side_effect (fs : FS) (path_d : PathStr) (fs2 : FS)
    (h : lock_dir fs path_d = Except.ok fs2) : fs2 = fs := by
  unfold lock_dir at h
  cases hex : existsPath fs path_d with
  | false =>
    rw [hex] at h
    exact Except.noConfusion h
  | true =>
    rw [hex] at h
    cases hdir : isdirPath fs path_d with
    | false =>
      rw [hdir] at h
      exact Except.noConfusion h
    | true =>
      rw [hdir] at h
      have h' : Except.ok fs = Except.ok fs2 := h
      injection h' with h''
      exact h''.symm

/-- `/d` is an (empty) directory. -/
def fsLock : FS := ⟨[], Node.dir 4096 [(['d'], Node.dir 4096 [])]⟩

/-- C3 (witness). -/
theorem lock_dir_no_side_effect_witness :
    lock_dir fsLock ['/', 'd'] = Except.ok fsLock ∧ fsLock = fsLock :=
  ⟨by rfl, lock_dir_no_side_effect fsLock ['/', 'd'] fsLock (by rfl)⟩

/-! ## Claim C9: `convert_unix_path_to_os_path` -/

/-- C9 (amended): the function fails with the assertion error exactly when its
argument is not a string; a string that is empty after stripping the leading
slash-run does NOT fail — `str.split` produces a single empty segment and the
join of that single segment is the empty string. -/
theorem convert_unix_behavior :
    (∀ n : Int, convert_unix_path_to_os_path (PyVal.int n)
      = Except.error Err.assertionError) ∧
    (∀ l : List PyVal, convert_unix_path_to_os_path (PyVal.list l)
      = Except.error Err.assertionError) ∧
    convert_unix_path_to_os_path PyVal.noneV = Except.error Err.assertionError ∧
    (∀ p : PathStr, lstripSlashes p = [] →
      convert_unix_path_to_os_path (PyVal.str p) = Except.ok []) := by
  refine ⟨fun n => rfl, fun l => rfl, rfl, fun p hp => ?_⟩
  show (match splitSlash (lstripSlashes p) with
    | [] => Except.error Err.typeError
    | a :: rest => Except.ok (joinList a rest)) = Except.ok []
  rw [hp]
  rfl

/-- C9 (counterexample): on `"/"` — a string that is empty after stripping the
leading slash-run — the function returns the empty string instead of failing. -/
theorem convert_unix_empty_no_error :
    convert_unix_path_to_os_path (PyVal.str ['/']) = Except.ok [] := rfl

/-- C9 (witness). -/
theorem convert_unix_behavior_witness :
    lstripSlashes ['/'] = [] ∧
    convert_unix_path_to_os_path (PyVal.str ['/']) = Except.ok [] :=
  ⟨by rfl, convert_unix_behavior.2.2.2 ['/'] (by rfl)⟩

/-! ## Claims C1, C2: symlink resolution -/

/-- `/d` is a directory with subdirectory `x` containing file `y`, and `l` a
symlink to `/d/x/y`. -/
def fsLink : FS := ⟨[], Node.dir 4096 [(['d'], Node.dir 4096
  [(['x'], Node.dir 4096 [(['y'], Node.file 1)]),
   (['l'], Node.symlink ['/', 'd', '/', 'x', '/', 'y'])])]⟩

/-- C1: the link `/d/l` resolves to `/d/x/y`, whose containing directory
`/d/x` lies inside `/d`, so the claim requires `true`; the code returns
`false`, because `symlinks_to_real_paths` splits the bare link path into
characters and element `[0]` is the realpath of the single character `/`. -/
theorem symlink_source_first_char_bug :
    islinkPath fsLink ['/', 'd', '/', 'l'] = true ∧
    realpath fsLink ['/', 'd', '/', 'l'] = ['/', 'd', '/', 'x', '/', 'y'] ∧
    symlink_source_is_in_dir fsLink ['/', 'd', '/', 'l'] ['/', 'd'] true
      = Except.ok false :=
  ⟨rfl, rfl, rfl⟩

/-- `/a` is a symlink to the regular file `/b`. -/
def fsLn2 : FS := ⟨[], Node.dir 4096
  [(['a'], Node.symlink ['/', 'b']), (['b'], Node.file 7)]⟩

/-- C2: called with the single path string `"/a"`, the function returns one
realpath per character of the string — here two entries, the realpath of `"/"`
and of `"a"` — not the one-element list `[realpath "/a"]`. -/
theorem symlinks_to_real_paths_chars_bug :
    realpath fsLn2 ['/', 'a'] = ['/', 'b'] ∧
    symlinks_to_real_paths fsLn2 (StrOrList.str ['/', 'a']) = [['/'], ['/', 'b']] :=
  ⟨rfl, rfl⟩

/-! ## Claim C5: recursive file listing -/

/-- The relative directory `a` (under the root working directory) contains a
single file `f`. -/
def fsWalk : FS := ⟨[], Node.dir 4096 [(['a'], Node.dir 4096 [(['f'], Node.file 1)])]⟩

/-- C5: for the relative input directory `a` containing file `f`, the source's
`os.path.join(dir_d, dir_d, file_n)` joins the directory component twice and
yields `a/a/f`, not the claimed `os.path.join(dir_d, file_n) = a/f`. -/
theorem recursively_list_double_join_bug :
    existsPath fsWalk ['a'] = true ∧
    recursively_list_files_in_dirs fsWalk (StrOrList.str ['a']) =
      Except.ok [['a', '/', 'a', '/', 'f']] :=
  ⟨rfl, rfl⟩
